import Mathlib

/-!
Verification of the markdown-to-document-structure converter and the section
orchestrator of the RFX response generator
(src/rfx_generator_streamlit_final.py), as a shallow embedding over `List Char`
(Python strings) and pure functions (Python's `re` substitutions are embedded
by their matching semantics on the concrete patterns the code uses).

Functions that the Python code writes with `while` loops or whose recursion is
not structural are embedded with an explicit fuel argument (always called with
fuel = length of the input, which every call strictly decreases), so that all
definitions are structurally recursive and kernel-reducible.
-/

/-- Python's `\s` / `str.strip()` whitespace on ASCII. -/
def pyWs (c : Char) : Bool :=
  c = ' ' || c = '\t' || c = '\n' || c = '\r' || c = '\x0b' || c = '\x0c'

/-- Python `str.strip()`: drop leading and trailing whitespace. -/
def pyStrip (l : List Char) : List Char :=
  ((l.dropWhile pyWs).reverse.dropWhile pyWs).reverse

/-- The lazy-span search used by `re.sub(r'D(.+?)D', r'\1', text)` for a literal
delimiter `D`: from a position right after an opening delimiter, the shortest
non-empty run of non-newline characters followed by the delimiter again.
Returns (content, what follows the closing delimiter). -/
def findClose (d : List Char) : List Char → Option (List Char × List Char)
  | [] => none
  | c :: t =>
    if c = '\n' then none
    else if d.isPrefixOf t then some ([c], t.drop d.length)
    else
      match findClose d t with
      | some (content, after) => some (c :: content, after)
      | none => none

/-- Embedding of `re.sub(r'D(.+?)D', r'\1', text)` for a literal delimiter `D`: scan left to
right; at each position where the delimiter starts, replace the shortest
delimited span with its content and continue after it.
Embeds src lines 44-48 (one call per emphasis delimiter). -/
def subPairF (d : List Char) : Nat → List Char → List Char
  | 0, s => s
  | _ + 1, [] => []
  | n + 1, c :: t =>
    if d.isPrefixOf (c :: t) then
      match findClose d ((c :: t).drop d.length) with
      | some (content, after) => content ++ subPairF d n after
      | none => c :: subPairF d n t
    else c :: subPairF d n t

def subPair (d : List Char) (s : List Char) : List Char := subPairF d s.length s

/-- One attempt of `re.sub(r'^#{1,6}\s+', '', text, flags=re.MULTILINE)` at a
line start: 1-6 leading hashes followed by at least one whitespace character
(greedy, may span newlines). Returns (rest after the match, whether the last
consumed character was a newline, i.e. whether the next position is again a
line start). -/
def headerMatch (s : List Char) : Option (List Char × Bool) :=
  let hs := s.takeWhile (fun c => c = '#')
  if 1 ≤ hs.length ∧ hs.length ≤ 6 then
    let r1 := s.drop hs.length
    let ws := r1.takeWhile pyWs
    if ws.isEmpty then none
    else some (r1.drop ws.length, ws.getLast? = some '\n')
  else none

/-- Embedding of `re.sub(r'^#{1,6}\s+', '', text, flags=re.MULTILINE)` (src line 51); the
Bool tracks whether the current position is at a line start. -/
def stripHeadersF : Nat → Bool → List Char → List Char
  | 0, _, s => s
  | _ + 1, _, [] => []
  | n + 1, ls, c :: t =>
    if ls then
      match headerMatch (c :: t) with
      | some (rest, nl) => stripHeadersF n nl rest
      | none => c :: stripHeadersF n (c = '\n') t
    else c :: stripHeadersF n (c = '\n') t

def stripHeaders (s : List Char) : List Char := stripHeadersF s.length true s

/-- Embedding of `clean_markdown_text` (src lines 41-56): the Markdown Normalizer.
`re.sub(r'\*+', '', ...)` removes every asterisk, so it is a filter. -/
def clean_markdown_text (s : List Char) : List Char :=
  let t1 := subPair ['*', '*', '*'] s
  let t2 := subPair ['*', '*'] t1
  let t3 := subPair ['*'] t2
  let t4 := subPair ['_', '_'] t3
  let t5 := subPair ['_'] t4
  let t6 := stripHeaders t5
  let t7 := t6.filter (fun c => c ≠ '*')
  pyStrip t7

/-- A separator character of the row-separator pattern `[\s\-:]`. -/
def isSepChar (c : Char) : Bool := pyWs c || c = '-' || c = ':'

/-- Embedding of `re.match(r'^\|[\s\-:]+\|', row)` (src line 72): the row starts with a
pipe, then a non-empty run of whitespace/dash/colon characters, then a pipe
(a prefix match: anything may follow). Since a pipe is not a separator
character, the backtracking search succeeds exactly when the character after
the maximal separator-character run is a pipe. -/
def isSepRow : List Char → Bool
  | [] => false
  | c :: r =>
    decide (c = '|') && decide (r.takeWhile isSepChar ≠ [])
      && decide ((r.dropWhile isSepChar).head? = some '|')

/-- One table row (src lines 71-75): strip the line; keep it unless it is
empty or a separator row; split on pipes, strip each cell, drop cells that
are empty after stripping; keep the row only if some cell remains. -/
def rowCells (line : List Char) : Option (List (List Char)) :=
  let row := pyStrip line
  if row.isEmpty then none
  else if isSepRow row then none
  else
    let cells := ((row.splitOn '|').map pyStrip).filter (fun c => !c.isEmpty)
    if cells.isEmpty then none else some cells

/-- The line scan of `parse_markdown_table` (src lines 62-81): a line with at
least two pipes starts a table block; the block is the maximal run of
consecutive lines containing a pipe; its retained rows form one table, emitted
only if non-empty. Fuel = number of lines. -/
def parseTablesF : Nat → List (List Char) → List (List (List (List Char)))
  | 0, _ => []
  | _ + 1, [] => []
  | n + 1, l :: ls =>
    if 2 ≤ l.count '|' then
      let block := l :: ls.takeWhile (fun x => x.contains '|')
      let rest := ls.dropWhile (fun x => x.contains '|')
      let rows := block.filterMap rowCells
      if rows.isEmpty then parseTablesF n rest else rows :: parseTablesF n rest
    else parseTablesF n ls

/-- Embedding of `parse_markdown_table` (src lines 58-82): the Table Extractor. -/
def parse_markdown_table (text : List Char) : List (List (List (List Char))) :=
  let lines := text.splitOn '\n'
  parseTablesF lines.length lines

/-- The suffix of a line after its last pipe. -/
def afterLastPipe (line : List Char) : List Char :=
  (line.reverse.takeWhile (fun c => c ≠ '|')).reverse

/-- The greedy repetition `(\n\|[^\n]+\|)+` of the table placeholder pattern
(src line 126), matched after a line that ends in a pipe: each iteration
consumes a newline, then a line that starts with a pipe and contains a later
pipe; the repetition extends to the next line only when the current line's
closing pipe is at the line end (only there can the next `\n` follow), and the
final iteration closes at the last pipe of its line. Returns what follows the
match. Fuel = length. -/
def matchMoreF : Nat → List Char → Option (List Char)
  | 0, _ => none
  | n + 1, '\n' :: '|' :: v =>
    let line := v.takeWhile (fun c => c ≠ '\n')
    let rest := v.drop line.length
    if (line.drop 1).contains '|' then
      if line.getLast? = some '|' then
        match matchMoreF n rest with
        | some r => some r
        | none => some rest
      else some (afterLastPipe line ++ rest)
    else none
  | _ + 1, _ => none

/-- A match of `re.compile(r'\|[^\n]+\|(\n\|[^\n]+\|)+')` starting at this
position: a pipe, a first line that ends with a pipe (with at least one
character in between — only the line-end pipe can be followed by the mandatory
`\n` of the repetition), then the repetition. Returns what follows the match. -/
def tableMatchAt (s : List Char) : Option (List Char) :=
  match s with
  | '|' :: t =>
    let line := t.takeWhile (fun c => c ≠ '\n')
    if 2 ≤ line.length ∧ line.getLast? = some '|' then
      matchMoreF (t.drop line.length).length (t.drop line.length)
    else none
  | _ => none

/-- The leftmost match of the table pattern: (text before the match, text
after the match), or none. -/
def findTableMatch : List Char → Option (List Char × List Char)
  | [] => none
  | c :: t =>
    match tableMatchAt (c :: t) with
    | some rest => some ([], rest)
    | none =>
      match findTableMatch t with
      | some (pre, rest) => some (c :: pre, rest)
      | none => none

def PLACEHOLDER : List Char := ("[TABLE_PLACEHOLDER]").data

/-- Embedding of `re.sub(table_pattern, '[TABLE_PLACEHOLDER]', text, count=1)`
(src line 127). -/
def subTableOnce (s : List Char) : List Char :=
  match findTableMatch s with
  | some (pre, rest) => pre ++ PLACEHOLDER ++ rest
  | none => s

/-- The `for table in tables` loop of src lines 124-127: one count=1
substitution per extracted table. -/
def removeTablesIter : Nat → List Char → List Char
  | 0, s => s
  | n + 1, s => removeTablesIter n (subTableOnce s)

/-- Python `text.split('\n\n')` (src line 130). -/
def splitParas : List Char → List (List Char)
  | '\n' :: '\n' :: t => [] :: splitParas t
  | c :: t =>
    match splitParas t with
    | h :: r => (c :: h) :: r
    | [] => [[c]]
  | [] => [[]]

/-- Substring test, Python `pat in s`. -/
def containsSub (pat : List Char) : List Char → Bool
  | [] => pat.isPrefixOf []
  | c :: t => pat.isPrefixOf (c :: t) || containsSub pat t

/-- Python `s.replace(pat, '')` for a non-empty pattern: remove every
left-to-right non-overlapping occurrence (src lines 150 and 154). -/
def replaceAllF (d : List Char) : Nat → List Char → List Char
  | 0, s => s
  | _ + 1, [] => []
  | n + 1, c :: t =>
    if d.isPrefixOf (c :: t) then replaceAllF d n ((c :: t).drop d.length)
    else c :: replaceAllF d n t

def pyReplaceDel (d : List Char) (s : List Char) : List Char := replaceAllF d s.length s

/-- A Content Block: what one paragraph-loop iteration of
`add_formatted_content` emits into the document. The empty spacer paragraph
added after a table (`doc.add_paragraph()  # Add space after table`, src line
141) carries no content and is rendering style, like fonts and line spacing,
so it is not a content block. -/
inductive Block where
  | heading (level : Nat) (text : List Char)
  | para (text : List Char)
  | table (rows : List (List (List Char)))
deriving DecidableEq

/-- The paragraph loop of `add_formatted_content` (src lines 132-168):
skip candidates that strip to nothing; a candidate containing the placeholder
emits the next unconsumed table if one remains and is otherwise skipped; any
other candidate is normalized and then classified by its leading hashes, a
heading's text having every occurrence of its marker removed and being
stripped. -/
def composeBlocks (tables : List (List (List (List Char)))) :
    List (List Char) → Nat → List Block
  | [], _ => []
  | p :: ps, idx =>
    if (pyStrip p).isEmpty then composeBlocks tables ps idx
    else if containsSub PLACEHOLDER p then
      if idx < tables.length then
        Block.table (tables.getD idx []) :: composeBlocks tables ps (idx + 1)
      else composeBlocks tables ps idx
    else
      let q := clean_markdown_text p
      if (['#', '#', '#']).isPrefixOf q then
        Block.heading 3 (pyStrip (pyReplaceDel ['#', '#', '#'] q)) :: composeBlocks tables ps idx
      else if (['#', '#']).isPrefixOf q then
        Block.heading 2 (pyStrip (pyReplaceDel ['#', '#'] q)) :: composeBlocks tables ps idx
      else Block.para q :: composeBlocks tables ps idx

/-- Embedding of `add_formatted_content` (src lines 117-168): the Content Block Composer.
Extract the tables, replace one table-pattern span per extracted table with
the placeholder token, split on blank lines, and emit blocks. -/
def add_formatted_content (content : List Char) : List Block :=
  let tables := parse_markdown_table content
  let text := removeTablesIter tables.length content
  composeBlocks tables (splitParas text) 0

/-- The cell-writing loop of `add_table_to_doc` (src lines 94-98): write each
datum of the row into the document row's cell at its index, normalized; a
python-docx row has exactly `cols` cells, so an index past the end raises.
`j` is the enumeration index. -/
def populateRow : List (List Char) → List (List Char) → Nat → Except String (List (List Char))
  | cells, [], _ => Except.ok cells
  | cells, d :: ds, j =>
    if j < cells.length then populateRow (cells.set j (clean_markdown_text d)) ds (j + 1)
    else Except.error ("IndexError: list index out of range")

/-- Left-to-right effectful map over `Except`: the first raised error aborts,
as an uncaught exception aborts the Python loop. -/
def exceptMapList (f : α → Except String β) : List α → Except String (List β)
  | [] => Except.ok []
  | a :: as =>
    match f a with
    | Except.error e => Except.error e
    | Except.ok b =>
      match exceptMapList f as with
      | Except.error e => Except.error e
      | Except.ok bs => Except.ok (b :: bs)

/-- Embedding of `add_table_to_doc` (src lines 84-98): an empty table adds nothing; else
the document table is created with `cols = len(table_data[0])` columns, every
cell initially empty, and each data row is written in order. The result is
the grid of cell texts (styling is not modeled); an out-of-range cell index
is the `IndexError` that python-docx's `row.cells[j]` raises. -/
def add_table_to_doc (table_data : List (List (List Char))) :
    Except String (List (List (List Char))) :=
  match table_data with
  | [] => Except.ok []
  | r0 :: rs =>
    exceptMapList (fun rd => populateRow (List.replicate r0.length []) rd 0) (r0 :: rs)

/-- A Section Definition (src lines 28-39). -/
structure SectionDef where
  key : String
  label : String
  icon : String
deriving DecidableEq

/-- Embedding of `SECTIONS` (src lines 28-39): the ten fixed section definitions. -/
def SECTIONS : List SectionDef :=
  [⟨"executive_summary", "Executive summary", "📋"⟩,
   ⟨"implementation_architecture", "Implementation architecture", "🏗️"⟩,
   ⟨"team_members", "Team composition", "👥"⟩,
   ⟨"cost_estimate", "Cost estimate", "💰"⟩,
   ⟨"execution_plan", "Execution plan", "📅"⟩,
   ⟨"timeline", "Timeline and Milestones", "⏱️"⟩,
   ⟨"risks", "Risk assessment", "⚠️"⟩,
   ⟨"assumptions", "Assumptions and Dependencies", "📌"⟩,
   ⟨"deliverables", "Deliverables", "✅"⟩,
   ⟨"conclusion", "Conclusion", "🎯"⟩]

/-- Python dict assignment `m[k] = v`: overwrite in place if the key exists,
else append. -/
def dictSet : List (String × String) → String → String → List (String × String)
  | [], k, v => [(k, v)]
  | kv :: m, k, v => if kv.1 = k then (k, v) :: m else kv :: dictSet m k v

/-- Python dict lookup. -/
def dictGet (k : String) : List (String × String) → Option String
  | [] => none
  | kv :: m => if kv.1 = k then some kv.2 else dictGet k m

/-- Embedding of `generate_section` (src lines 186-220): the external call
`client.messages.create(...).content[0].text` either yields text or raises;
the function's `try/except Exception` turns any raise into the error
placeholder string, so the function itself is total. -/
def generate_section (api_result : Except String String) : String :=
  match api_result with
  | Except.ok text => text
  | Except.error e => "Error generating section: " ++ e

/-- Embedding of `generate_all_sections` (src lines 222-258): one generation task per
section, results collected into the mapping keyed by section key as each task
completes. `as_completed` yields every submitted future exactly once in a
nondeterministic order, so the completion order is an arbitrary permutation
`order` of `SECTIONS` and `api` gives each key's transport outcome (the
`except` branch of the collection loop is unreachable because
`generate_section` catches every exception itself). -/
def generate_all_sections (api : String → Except String String)
    (order : List SectionDef) : List (String × String) :=
  order.foldl (fun acc s => dictSet acc s.key (generate_section (api s.key))) []

/-- Embedding of `str.replace(' ', '_')` on the client name (src line 360). -/
def replaceSpaces (s : List Char) : List Char :=
  s.map (fun c => if c = ' ' then '_' else c)

/-- The output filename derivation of `create_docx_document` (src line 360):
`f"RFX_{client.replace(' ', '_')}_{timestamp}.docx"`. -/
def docx_filename (client ts : List Char) : List Char :=
  ("RFX_").data ++ replaceSpaces client ++ ("_").data ++ ts ++ (".docx").data

/-- C1 counterexample: the Markdown Normalizer is not idempotent. On
"## # a" one pass strips only the first hash run (the multiline header
pattern matches once per line start), leaving "# a", which a second pass
reduces to "a". -/
theorem clean_markdown_text_not_idempotent :
    clean_markdown_text (clean_markdown_text ("## # a".data))
      ≠ clean_markdown_text ("## # a".data) := by decide

/-- C3 counterexample: the Composer does not emit one Table block per
extracted table. On "| a |\n\nx" the Table Extractor finds one table
([["a"]]), but the placeholder pattern requires at least two table lines, so
no span is replaced and no Table block is emitted: the table text stays a
plain paragraph. -/
theorem single_line_table_not_composed :
    parse_markdown_table ("| a |\n\nx".data) = [[["a".data]]]
    ∧ add_formatted_content ("| a |\n\nx".data)
        = [Block.para ("| a |".data), Block.para ("x".data)] := by
  exact ⟨by decide, by decide⟩

/-- C3 amended: the concrete example of the claim does hold: the example
string composes to exactly Paragraph "Intro", the table, Paragraph "Outro",
in that order. -/
theorem composer_example_ordering :
    add_formatted_content ("Intro\n\n| A | B |\n|---|---|\n| 1 | 2 |\n\nOutro".data)
      = [Block.para ("Intro".data),
         Block.table [["A".data, "B".data], ["1".data, "2".data]],
         Block.para ("Outro".data)] := by decide

/-- C4 counterexample: an interior empty cell is dropped, exactly like the
boundary ones: the row "| A || B |" yields cells ["A", "B"], not
["A", "", "B"]. -/
theorem interior_empty_cell_dropped :
    parse_markdown_table ("| A || B |".data) = [[["A".data, "B".data]]]
    ∧ parse_markdown_table ("| A || B |".data) ≠ [[["A".data, [], "B".data]]] := by
  exact ⟨by decide, by decide⟩

/-- C5 counterexample: the separator test is a prefix match, not a whole-row
match: "|---| data |" is discarded although it carries data (so the single
row block yields no table), while "---|---|---" consists only of separator
characters yet is retained as a data row because it does not start with a
pipe. -/
theorem separator_prefix_match_counterexample :
    parse_markdown_table ("|---| data |".data) = []
    ∧ parse_markdown_table ("---|---|---".data)
        = [[["---".data, "---".data, "---".data]]] := by
  exact ⟨by decide, by decide⟩

/-- C6 counterexample: a placeholder-containing paragraph candidate beyond
the number of extracted tables is skipped, not rendered as literal text: a
content string that is just the placeholder token (no tables) composes to no
blocks at all, and surrounding paragraphs are kept while the extra
placeholder is dropped. -/
theorem extra_placeholder_dropped_counterexample :
    add_formatted_content ("[TABLE_PLACEHOLDER]".data) = []
    ∧ add_formatted_content ("A\n\n[TABLE_PLACEHOLDER]\n\nB".data)
        = [Block.para ("A".data), Block.para ("B".data)] := by
  exact ⟨by decide, by decide⟩

/-- C9 counterexample: the filename derivation is not injective in the client
name for a fixed timestamp: distinct client names "A B" and "A_B" collide,
since spaces are replaced by underscores. -/
theorem docx_filename_collision :
    docx_filename ("A B".data) ("20250101_000000".data)
      = docx_filename ("A_B".data) ("20250101_000000".data)
    ∧ ("A B".data ≠ "A_B".data) := by
  exact ⟨by decide, by decide⟩

/-- C2 (code bug): classification happens on the normalized text, but the
Markdown Normalizer has already stripped well-formed heading markers (hashes
followed by whitespace), so a candidate whose source text begins "### Title"
is emitted as a Paragraph, not a Heading — contradicting the code's own
comment "Check if it's a heading (starts with original ### or ##)". Only
hashes not followed by whitespace survive normalization and reach the
heading branch. -/
theorem heading_candidates_become_paragraphs :
    add_formatted_content ("### Title".data) = [Block.para ("Title".data)]
    ∧ add_formatted_content ("## Subtitle".data) = [Block.para ("Subtitle".data)]
    ∧ add_formatted_content ("###NoSpace".data) = [Block.heading 3 ("NoSpace".data)] := by
  exact ⟨by decide, by decide, by decide⟩
theorem mem_of_dropWhile {p : Char → Bool} : ∀ {l : List Char} {c : Char},
    c ∈ l.dropWhile p → c ∈ l := by
  intro l
  induction l with
  | nil => intro c h; simp [List.dropWhile] at h
  | cons a t ih =>
    intro c h
    by_cases hp : p a = true
    · simp [List.dropWhile_cons, hp] at h
      exact List.mem_cons_of_mem a (ih h)
    · simp [List.dropWhile_cons, hp] at h
      simpa using h

theorem dropWhile_head_not {p : Char → Bool} : ∀ {l : List Char} {c : Char} {t : List Char},
    l.dropWhile p = c :: t → p c = false := by
  intro l
  induction l with
  | nil => intro c t h; simp [List.dropWhile] at h
  | cons a u ih =>
    intro c t h
    by_cases hp : p a = true
    · simp [List.dropWhile_cons, hp] at h
      exact ih h
    · simp [List.dropWhile_cons, hp] at h
      rw [← h.1]
      simpa using hp

theorem dropWhile_getLast? {p : Char → Bool} : ∀ {l : List Char},
    l.dropWhile p ≠ [] → (l.dropWhile p).getLast? = l.getLast? := by
  intro l
  induction l with
  | nil => intro h; simp [List.dropWhile] at h
  | cons a u ih =>
    intro h
    by_cases hp : p a = true
    · rw [List.dropWhile_cons, if_pos hp] at h ⊢
      rw [ih h]
      have hu : u ≠ [] := by
        intro he; rw [he] at h; simp [List.dropWhile] at h
      cases u with
      | nil => exact absurd rfl hu
      | cons b v => exact (List.getLast?_cons_cons ..).symm
    · rw [List.dropWhile_cons, if_neg hp]

theorem dropWhile_dropWhile {p : Char → Bool} (l : List Char) :
    (l.dropWhile p).dropWhile p = l.dropWhile p := by
  cases h : l.dropWhile p with
  | nil => simp [List.dropWhile]
  | cons c t =>
    have := dropWhile_head_not h
    simp [List.dropWhile_cons, this]

theorem mem_pyStrip {c : Char} {l : List Char} (h : c ∈ pyStrip l) : c ∈ l := by
  unfold pyStrip at h
  rw [List.mem_reverse] at h
  have h2 := mem_of_dropWhile h
  rw [List.mem_reverse] at h2
  exact mem_of_dropWhile h2

theorem pyStrip_pyStrip (l : List Char) : pyStrip (pyStrip l) = pyStrip l := by
  unfold pyStrip
  set u := l.dropWhile pyWs with hu
  set v := u.reverse.dropWhile pyWs with hv
  -- goal about v.reverse
  by_cases hvnil : v = []
  · simp [hvnil, List.dropWhile]
  · -- head of v.reverse is v.getLast, which is u.reverse.getLast = u.head, non-ws
    have hvrev : v.reverse ≠ [] := by simpa using hvnil
    -- step 1: (v.reverse).dropWhile pyWs = v.reverse
    have hstep1 : v.reverse.dropWhile pyWs = v.reverse := by
      cases hx : v.reverse with
      | nil => exact absurd hx hvrev
      | cons c t =>
        have hc : v.reverse.head? = some c := by rw [hx]; rfl
        rw [List.head?_reverse] at hc
        -- v.getLast? = some c; v = dropWhile pyWs u.reverse, nonempty
        have hgl : v.getLast? = u.reverse.getLast? := dropWhile_getLast? hvnil
        rw [hgl] at hc
        rw [List.getLast?_reverse] at hc
        -- u.head? = some c and u = dropWhile pyWs l so pyWs c = false
        have hcfalse : pyWs c = false := by
          cases hy : u with
          | nil => rw [hy] at hc; simp at hc
          | cons b w =>
            rw [hy] at hc
            simp at hc
            rw [← hc]
            exact dropWhile_head_not (hu ▸ hy)
        rw [List.dropWhile_cons, hcfalse]
        simp
    rw [hstep1]
    -- step 2: (v.reverse.reverse).dropWhile pyWs = v
    rw [List.reverse_reverse]
    rw [hv, dropWhile_dropWhile]
theorem findClose_mem {d : List Char} : ∀ {l content after : List Char},
    findClose d l = some (content, after) →
    (∀ c ∈ content, c ∈ l) ∧ (∀ c ∈ after, c ∈ l) := by
  intro l
  induction l with
  | nil => intro content after h; simp [findClose] at h
  | cons a t ih =>
    intro content after h
    unfold findClose at h
    by_cases ha : a = '\n'
    · simp [ha] at h
    · rw [if_neg ha] at h
      by_cases hp : d.isPrefixOf t = true
      · rw [if_pos hp] at h
        simp at h
        obtain ⟨h1, h2⟩ := h
        constructor
        · intro c hc
          rw [← h1] at hc
          simp at hc
          simp [hc]
        · intro c hc
          rw [← h2] at hc
          exact List.mem_cons_of_mem a (List.drop_subset _ t hc)
      · rw [if_neg hp] at h
        cases hrec : findClose d t with
        | none => rw [hrec] at h; simp at h
        | some pr =>
          rw [hrec] at h
          obtain ⟨cnt, aft⟩ := pr
          simp at h
          obtain ⟨h1, h2⟩ := h
          obtain ⟨ic, ia⟩ := ih hrec
          constructor
          · intro c hc
            rw [← h1] at hc
            rcases List.mem_cons.mp hc with hc | hc
            · simp [hc]
            · exact List.mem_cons_of_mem a (ic c hc)
          · intro c hc
            rw [← h2] at hc
            exact List.mem_cons_of_mem a (ia c hc)

theorem mem_subPairF {d : List Char} : ∀ {n : Nat} {s : List Char} {c : Char},
    c ∈ subPairF d n s → c ∈ s := by
  intro n
  induction n with
  | zero => intro s c h; simpa [subPairF] using h
  | succ n ih =>
    intro s c h
    cases s with
    | nil => simp [subPairF] at h
    | cons a t =>
      unfold subPairF at h
      by_cases hp : d.isPrefixOf (a :: t) = true
      · rw [if_pos hp] at h
        cases hfc : findClose d ((a :: t).drop d.length) with
        | none =>
          rw [hfc] at h
          rcases List.mem_cons.mp h with h | h
          · simp [h]
          · exact List.mem_cons_of_mem a (ih h)
        | some pr =>
          obtain ⟨content, after⟩ := pr
          rw [hfc] at h
          rcases List.mem_append.mp h with h | h
          · exact List.drop_subset _ (a :: t) ((findClose_mem hfc).1 c h)
          · exact List.drop_subset _ (a :: t) ((findClose_mem hfc).2 c (ih h))
      · rw [if_neg hp] at h
        rcases List.mem_cons.mp h with h | h
        · simp [h]
        · exact List.mem_cons_of_mem a (ih h)

theorem headerMatch_subset {s rest : List Char} {b : Bool}
    (h : headerMatch s = some (rest, b)) : ∀ c ∈ rest, c ∈ s := by
  unfold headerMatch at h
  by_cases h1 : 1 ≤ (s.takeWhile (fun c => c = '#')).length ∧ (s.takeWhile (fun c => c = '#')).length ≤ 6
  · rw [if_pos h1] at h
    by_cases h2 : ((s.drop (s.takeWhile (fun c => c = '#')).length).takeWhile pyWs).isEmpty = true
    · simp only [h2, if_pos] at h
      simp at h
    · rw [if_neg h2] at h
      simp at h
      intro c hc
      rw [← h.1] at hc
      exact List.drop_subset _ s hc
  · rw [if_neg h1] at h
    simp at h

theorem mem_stripHeadersF : ∀ {n : Nat} {b : Bool} {s : List Char} {c : Char},
    c ∈ stripHeadersF n b s → c ∈ s := by
  intro n
  induction n with
  | zero => intro b s c h; simpa [stripHeadersF] using h
  | succ n ih =>
    intro b s c h
    cases s with
    | nil => simp [stripHeadersF] at h
    | cons a t =>
      unfold stripHeadersF at h
      by_cases hb : b = true
      · rw [hb] at h
        simp only [if_pos] at h
        cases hm : headerMatch (a :: t) with
        | none =>
          rw [hm] at h
          rcases List.mem_cons.mp h with h | h
          · simp [h]
          · exact List.mem_cons_of_mem a (ih h)
        | some pr =>
          obtain ⟨rest, nl⟩ := pr
          rw [hm] at h
          exact headerMatch_subset hm c (ih h)
      · have hb2 : b = false := by simpa using hb
        rw [hb2] at h
        simp only [Bool.false_eq_true, if_false] at h
        rcases List.mem_cons.mp h with h | h
        · simp [h]
        · exact List.mem_cons_of_mem a (ih h)
theorem isPrefixOf_head {d0 c : Char} {dr t : List Char}
    (h : (d0 :: dr).isPrefixOf (c :: t) = true) : d0 = c := by
  simp [List.isPrefixOf] at h
  exact h.1

theorem subPairF_eq_self {d0 : Char} (dr : List Char) : ∀ (n : Nat) {s : List Char},
    d0 ∉ s → subPairF (d0 :: dr) n s = s := by
  intro n
  induction n with
  | zero => intro s _; rfl
  | succ n ih =>
    intro s hs
    cases s with
    | nil => rfl
    | cons a t =>
      have hne : (d0 :: dr).isPrefixOf (a :: t) = false := by
        by_contra hcon
        have : (d0 :: dr).isPrefixOf (a :: t) = true := by
          simpa using hcon
        exact hs (isPrefixOf_head this ▸ List.mem_cons_self a t)
      unfold subPairF
      rw [hne]
      simp only [Bool.false_eq_true, if_false]
      rw [ih (fun hmem => hs (List.mem_cons_of_mem a hmem))]

theorem headerMatch_none {c : Char} {t : List Char} (h : ¬ c = '#') :
    headerMatch (c :: t) = none := by
  unfold headerMatch
  have : (c :: t).takeWhile (fun x => x = '#') = [] := by
    simp [List.takeWhile_cons, h]
  rw [this]
  simp

theorem stripHeadersF_eq_self : ∀ (n : Nat) (b : Bool) {s : List Char},
    '#' ∉ s → stripHeadersF n b s = s := by
  intro n
  induction n with
  | zero => intro b s _; rfl
  | succ n ih =>
    intro b s hs
    cases s with
    | nil => rfl
    | cons a t =>
      have ha : ¬ a = '#' := by
        intro he; exact hs (he ▸ List.mem_cons_self a t)
      have ht : '#' ∉ t := fun hmem => hs (List.mem_cons_of_mem a hmem)
      unfold stripHeadersF
      cases b with
      | false => simp only [Bool.false_eq_true, if_false]; rw [ih _ ht]
      | true =>
        simp only [if_pos]
        rw [headerMatch_none ha]
        rw [ih _ ht]

theorem mem_clean_markdown_text {c : Char} {s : List Char}
    (h : c ∈ clean_markdown_text s) : c ∈ s ∧ ¬ c = '*' := by
  unfold clean_markdown_text at h
  have h1 := mem_pyStrip h
  rw [List.mem_filter] at h1
  obtain ⟨h2, hstar⟩ := h1
  refine ⟨?_, by simpa using hstar⟩
  exact mem_subPairF (mem_subPairF (mem_subPairF (mem_subPairF (mem_subPairF
    (mem_stripHeadersF h2)))))

/-- C1 amended: the Markdown Normalizer is idempotent on every input that
contains no hash and no underscore. (In general a second pass can differ: a
heading match consumes only the first hash run of a line, and the underscore
substitutions can re-create a paired span, as the counterexample shows.) -/
theorem clean_markdown_text_idempotent_no_hash_underscore (s : List Char)
    (h1 : '#' ∉ s) (h2 : '_' ∉ s) :
    clean_markdown_text (clean_markdown_text s) = clean_markdown_text s := by
  set t := clean_markdown_text s with ht
  have hstar : '*' ∉ t := fun hmem => (mem_clean_markdown_text hmem).2 rfl
  have hhash : '#' ∉ t := fun hmem => h1 (mem_clean_markdown_text hmem).1
  have hund : '_' ∉ t := fun hmem => h2 (mem_clean_markdown_text hmem).1
  show clean_markdown_text t = t
  unfold clean_markdown_text
  simp only []
  rw [show subPair ['*', '*', '*'] t = t from subPairF_eq_self _ _ hstar]
  rw [show subPair ['*', '*'] t = t from subPairF_eq_self _ _ hstar]
  rw [show subPair ['*'] t = t from subPairF_eq_self _ _ hstar]
  rw [show subPair ['_', '_'] t = t from subPairF_eq_self _ _ hund]
  rw [show subPair ['_'] t = t from subPairF_eq_self _ _ hund]
  rw [show stripHeaders t = t from stripHeadersF_eq_self _ _ hhash]
  rw [List.filter_eq_self.mpr (fun a ha => by
    simp only [decide_eq_true_eq]
    intro he
    exact hstar (he ▸ ha))]
  rw [ht]
  unfold clean_markdown_text
  exact pyStrip_pyStrip _

/-- Witness for the amended C1 theorem at a concrete input. -/
theorem clean_markdown_text_idempotent_witness :
    ('#' ∉ ("**bold** text").data ∧ '_' ∉ ("**bold** text").data)
    ∧ clean_markdown_text (clean_markdown_text (("**bold** text").data))
        = clean_markdown_text (("**bold** text").data) :=
  ⟨⟨by decide, by decide⟩,
   clean_markdown_text_idempotent_no_hash_underscore _ (by decide) (by decide)⟩
theorem rowCells_cells {line : List Char} {cells : List (List Char)}
    (h : rowCells line = some cells) :
    ∀ c ∈ cells, c ≠ [] ∧ pyStrip c = c := by
  unfold rowCells at h
  by_cases he : (pyStrip line).isEmpty = true
  · simp [he] at h
  · rw [if_neg he] at h
    by_cases hsep : isSepRow (pyStrip line) = true
    · simp [hsep] at h
    · rw [if_neg hsep] at h
      by_cases hc : ((((pyStrip line).splitOn '|').map pyStrip).filter (fun c => !c.isEmpty)).isEmpty = true
      · simp [hc] at h
      · rw [if_neg hc] at h
        simp at h
        intro c hmem
        rw [← h] at hmem
        rw [List.mem_filter] at hmem
        obtain ⟨hmap, hne⟩ := hmem
        constructor
        · intro hnil
          rw [hnil] at hne
          simp at hne
        · rw [List.mem_map] at hmap
          obtain ⟨part, _, hpart⟩ := hmap
          rw [← hpart]
          exact pyStrip_pyStrip part

theorem parseTablesF_cells : ∀ (n : Nat) (lines : List (List Char)),
    ∀ t ∈ parseTablesF n lines, ∀ r ∈ t, ∀ c ∈ r, c ≠ [] ∧ pyStrip c = c := by
  intro n
  induction n with
  | zero => intro lines; simp [parseTablesF]
  | succ n ih =>
    intro lines
    cases lines with
    | nil => simp [parseTablesF]
    | cons l ls =>
      show ∀ t ∈ parseTablesF (n + 1) (l :: ls), _
      rw [parseTablesF]
      by_cases hcnt : 2 ≤ l.count '|'
      · rw [if_pos hcnt]
        simp only []
        by_cases hrows : ((l :: ls.takeWhile fun x => x.contains '|').filterMap rowCells).isEmpty = true
        · rw [if_pos hrows]
          exact ih _
        · rw [if_neg hrows]
          intro t hmem
          rcases List.mem_cons.mp hmem with hmem | hmem
          · intro r hr
            rw [hmem] at hr
            rw [List.mem_filterMap] at hr
            obtain ⟨line, _, hrc⟩ := hr
            exact rowCells_cells hrc
          · exact ih _ t hmem
      · rw [if_neg hcnt]
        exact ih _

/-- C4 amended: every cell the Table Extractor retains is non-empty after
trimming and already trimmed — that is, every cell that strips to the empty
string is dropped, interior cells included (not only the boundary cells from
the outer pipes), and retained cell text is trimmed. -/
theorem parse_markdown_table_cells_trimmed_nonempty (text : List Char) :
    ∀ t ∈ parse_markdown_table text, ∀ r ∈ t, ∀ c ∈ r, c ≠ [] ∧ pyStrip c = c := by
  unfold parse_markdown_table
  exact parseTablesF_cells _ _

/-- Witness for the amended C4 theorem: on "| A || B |" the one extracted
table's one row's cells are "A" and "B", each non-empty and trimmed. -/
theorem parse_markdown_table_cells_witness :
    ("A").data ≠ [] ∧ pyStrip (("A").data) = ("A").data :=
  parse_markdown_table_cells_trimmed_nonempty (("| A || B |").data)
    [[("A").data, ("B").data]] (by decide) [("A").data, ("B").data] (by decide)
    (("A").data) (by decide)
theorem takeWhile_all_append {p : Char → Bool} {mid : List Char} {b : Char} {rest : List Char}
    (hmid : ∀ c ∈ mid, p c = true) (hb : p b = false) :
    (mid ++ b :: rest).takeWhile p = mid ∧ (mid ++ b :: rest).dropWhile p = b :: rest := by
  induction mid with
  | nil => simp [List.takeWhile_cons, List.dropWhile_cons, hb]
  | cons a m ih =>
    have ha : p a = true := hmid a (List.mem_cons_self a m)
    have hm : ∀ c ∈ m, p c = true := fun c hc => hmid c (List.mem_cons_of_mem a hc)
    obtain ⟨ih1, ih2⟩ := ih hm
    constructor
    · simp only [List.cons_append, List.takeWhile_cons, ha, if_pos]
      rw [ih1]
    · simp only [List.cons_append, List.dropWhile_cons, ha, if_pos]
      rw [ih2]

/-- C5 amended: a row is discarded as a separator exactly when it starts with
a pipe, then a non-empty run of whitespace/dash/colon characters, then
another pipe — a prefix condition: anything, including data cells, may follow
(so "|---| data |" is discarded), and a row of only separator characters that
does not start with a pipe is not a separator row. A stripped row satisfying
the condition is always dropped by the Table Extractor's row filter. -/
theorem isSepRow_prefix_iff (row : List Char) :
    (isSepRow row = true ↔
      ∃ mid rest, row = '|' :: (mid ++ '|' :: rest) ∧ mid ≠ []
        ∧ ∀ c ∈ mid, isSepChar c = true)
    ∧ (isSepRow (pyStrip row) = true → rowCells row = none) := by
  constructor
  · constructor
    · intro h
      cases row with
      | nil => simp [isSepRow] at h
      | cons c r =>
        simp only [isSepRow, Bool.and_eq_true, decide_eq_true_eq] at h
        obtain ⟨⟨hc, hrun⟩, hhead⟩ := h
        refine ⟨r.takeWhile isSepChar, (r.dropWhile isSepChar).tail, ?_, hrun, ?_⟩
        · have hsplit : r.takeWhile isSepChar ++ r.dropWhile isSepChar = r :=
            List.takeWhile_append_dropWhile isSepChar r
          cases hd : r.dropWhile isSepChar with
          | nil => rw [hd] at hhead; simp at hhead
          | cons x xs =>
            rw [hd] at hhead
            simp at hhead
            subst hhead
            subst hc
            rw [hd] at hsplit
            simp only [List.tail_cons]
            rw [hsplit]
        · intro c hcm
          exact List.mem_takeWhile_imp hcm
    · rintro ⟨mid, rest, hrow, hmid, hall⟩
      have hpipe : isSepChar '|' = false := by decide
      obtain ⟨ht, hd⟩ := takeWhile_all_append hall hpipe
      rw [hrow]
      simp only [isSepRow]
      rw [ht, hd]
      simp [hmid]
  · intro hsep
    have hne : (pyStrip row).isEmpty = false := by
      cases hp : pyStrip row with
      | nil => rw [hp] at hsep; simp [isSepRow] at hsep
      | cons a t => rfl
    simp [rowCells, hne, hsep]
/-- C6 amended: when the paragraph loop meets a placeholder-containing
candidate after every extracted table has been consumed, that candidate is
silently skipped — it contributes no block (it is neither rendered as literal
text nor a failure), and composition continues with the remaining
candidates. -/
theorem composeBlocks_extra_placeholder_skipped
    (tables : List (List (List (List Char)))) (p : List Char)
    (ps : List (List Char)) (idx : Nat)
    (hidx : tables.length ≤ idx) (hp : containsSub PLACEHOLDER p = true) :
    composeBlocks tables (p :: ps) idx = composeBlocks tables ps idx := by
  rw [composeBlocks]
  by_cases hs : (pyStrip p).isEmpty = true
  · rw [if_pos hs]
  · rw [if_neg hs, hp]
    simp only [if_pos]
    rw [if_neg (by omega : ¬ idx < tables.length)]

/-- Witness for the amended C6 theorem at a concrete input: no tables, one
placeholder candidate. -/
theorem composeBlocks_extra_placeholder_witness :
    ([] : List (List (List (List Char)))).length ≤ 0
    ∧ containsSub PLACEHOLDER PLACEHOLDER = true
    ∧ composeBlocks [] [PLACEHOLDER, ("B").data] 0 = composeBlocks [] [("B").data] 0 :=
  ⟨by decide, by decide,
   composeBlocks_extra_placeholder_skipped [] PLACEHOLDER [("B").data] 0
     (by decide) (by decide)⟩

/-- C9 amended: the filename derivation is injective in the
space-to-underscore image of the client name: two exports in the same second
get distinct filenames whenever the client names still differ after replacing
spaces with underscores (names differing only by space versus underscore
collide, as the counterexample shows). -/
theorem docx_filename_injective_mod_spaces (c1 c2 ts : List Char)
    (h : replaceSpaces c1 ≠ replaceSpaces c2) :
    docx_filename c1 ts ≠ docx_filename c2 ts := by
  intro he
  apply h
  unfold docx_filename at he
  simp only [List.append_assoc] at he
  exact List.append_cancel_right (List.append_cancel_left he)

/-- Witness for the amended C9 theorem at concrete inputs. -/
theorem docx_filename_injective_witness :
    replaceSpaces (("Acme Corp").data) ≠ replaceSpaces (("Globex").data)
    ∧ docx_filename (("Acme Corp").data) (("20250101_000000").data)
        ≠ docx_filename (("Globex").data) (("20250101_000000").data) :=
  ⟨by decide,
   docx_filename_injective_mod_spaces _ _ _ (by decide)⟩
theorem populateRow_ok : ∀ (ds : List (List Char)) (cells : List (List Char)) (j : Nat),
    j + ds.length ≤ cells.length →
    populateRow cells ds j
      = Except.ok (cells.take j ++ ds.map clean_markdown_text ++ cells.drop (j + ds.length)) := by
  intro ds
  induction ds with
  | nil =>
    intro cells j h
    simp [populateRow, List.take_append_drop]
  | cons d ds ih =>
    intro cells j h
    have hj : j < cells.length := by simp at h; omega
    rw [populateRow, if_pos hj]
    have hlen : (cells.set j (clean_markdown_text d)).length = cells.length :=
      List.length_set ..
    have hih := ih (cells.set j (clean_markdown_text d)) (j + 1)
      (by rw [hlen]; simp at h ⊢; omega)
    rw [hih]
    have hset : cells.set j (clean_markdown_text d)
        = cells.take j ++ clean_markdown_text d :: cells.drop (j + 1) := by
      rw [List.set_eq_take_append_cons_drop, if_pos hj]
    congr 1
    rw [hset]
    have htk : cells.take j ++ clean_markdown_text d :: cells.drop (j + 1)
        = (cells.take j ++ [clean_markdown_text d]) ++ cells.drop (j + 1) := by
      simp
    rw [htk]
    have hlt : (cells.take j ++ [clean_markdown_text d]).length = j + 1 := by
      simp [List.length_take]
      omega
    have htake : ((cells.take j ++ [clean_markdown_text d]) ++ cells.drop (j + 1)).take (j + 1)
        = cells.take j ++ [clean_markdown_text d] := by
      rw [show j + 1 = (cells.take j ++ [clean_markdown_text d]).length + 0 by rw [hlt]]
      rw [List.take_append]
      simp
    have hdrop : ((cells.take j ++ [clean_markdown_text d]) ++ cells.drop (j + 1)).drop (j + 1 + ds.length)
        = cells.drop (j + 1 + ds.length) := by
      rw [show j + 1 + ds.length = (cells.take j ++ [clean_markdown_text d]).length + ds.length by rw [hlt]]
      rw [List.drop_append]
      rw [List.drop_drop]
      congr 1
      omega
    rw [htake, hdrop]
    simp only [List.map_cons, List.length_cons]
    rw [show j + (ds.length + 1) = j + 1 + ds.length by omega]
    simp

theorem populateRow_error : ∀ (ds : List (List Char)) (cells : List (List Char)) (j : Nat),
    ds ≠ [] → cells.length < j + ds.length →
    populateRow cells ds j = Except.error ("IndexError: list index out of range") := by
  intro ds
  induction ds with
  | nil => intro cells j h _; exact absurd rfl h
  | cons d ds ih =>
    intro cells j _ hlt
    by_cases hj : j < cells.length
    · rw [populateRow, if_pos hj]
      have hne : ds ≠ [] := by
        intro he
        rw [he] at hlt
        simp at hlt
        omega
      apply ih _ _ hne
      rw [List.length_set]
      simp at hlt
      omega
    · rw [populateRow, if_neg hj]

theorem exceptMapList_isOk {f : α → Except String β} : ∀ (l : List α),
    (exceptMapList f l).isOk = true ↔ ∀ a ∈ l, (f a).isOk = true := by
  intro l
  induction l with
  | nil => simp [exceptMapList, Except.isOk, Except.toBool]
  | cons a as ih =>
    rw [exceptMapList]
    cases hfa : f a with
    | error e =>
      constructor
      · intro h; simp [Except.isOk, Except.toBool] at h
      · intro h
        have hthis := h a (List.mem_cons_self a as)
        rw [hfa] at hthis
        simp [Except.isOk, Except.toBool] at hthis
    | ok b =>
      cases hrec : exceptMapList f as with
      | error e =>
        constructor
        · intro h; simp [Except.isOk, Except.toBool] at h
        · intro h
          have hthis := ih.mpr (fun x hx => h x (List.mem_cons_of_mem a hx))
          rw [hrec] at hthis
          simp [Except.isOk, Except.toBool] at hthis
      | ok bs =>
        constructor
        · intro _ x hx
          rcases List.mem_cons.mp hx with hx | hx
          · rw [hx, hfa]; rfl
          · exact ih.mp (by rw [hrec]; rfl) x hx
        · intro _; rfl

theorem exceptMapList_all_ok {f : α → Except String β} {g : α → β} : ∀ (l : List α),
    (∀ a ∈ l, f a = Except.ok (g a)) → exceptMapList f l = Except.ok (l.map g) := by
  intro l
  induction l with
  | nil => intro _; rfl
  | cons a as ih =>
    intro h
    rw [exceptMapList, h a (List.mem_cons_self a as), ih (fun x hx => h x (List.mem_cons_of_mem a hx))]
    rfl

/-- C10: `add_table_to_doc` sizes the table by the first row (`len(table_data[0])`
columns) and writes row i's cell j into column j: it succeeds exactly when no
row is longer than the first row, in which case each output row is the
normalized input row padded with empty cells to the first row's width; a
longer later row makes `row.cells[j]` go out of range. The Table Extractor
does produce such non-rectangular tables and passes them through unmodified,
so the error branch is reachable from extractor output. -/
theorem add_table_to_doc_spec (r0 : List (List Char)) (rs : List (List (List Char))) :
    ((add_table_to_doc (r0 :: rs)).isOk = true ↔ ∀ r ∈ rs, r.length ≤ r0.length)
    ∧ ((∀ r ∈ rs, r.length ≤ r0.length) →
        add_table_to_doc (r0 :: rs)
          = Except.ok ((r0 :: rs).map (fun rd =>
              rd.map clean_markdown_text ++ List.replicate (r0.length - rd.length) [])))
    ∧ parse_markdown_table (("| a |\n| b | c |").data)
        = [[("a").data] :: [[("b").data, ("c").data]]]
    ∧ (add_table_to_doc ([("a").data] :: [[("b").data, ("c").data]])).isOk = false := by
  have hrow : ∀ (rd : List (List Char)), rd.length ≤ r0.length →
      populateRow (List.replicate r0.length []) rd 0
        = Except.ok (rd.map clean_markdown_text ++ List.replicate (r0.length - rd.length) []) := by
    intro rd hle
    have := populateRow_ok rd (List.replicate r0.length []) 0
      (by simp; omega)
    rw [this]
    simp [List.drop_replicate]
  have hrowerr : ∀ (rd : List (List Char)), r0.length < rd.length →
      (populateRow (List.replicate r0.length []) rd 0).isOk = false := by
    intro rd hlt
    have hne : rd ≠ [] := by
      intro he; rw [he] at hlt; simp at hlt
    rw [populateRow_error rd _ 0 hne (by simp; omega)]
    rfl
  refine ⟨?_, ?_, by decide, by rfl⟩
  · rw [add_table_to_doc, exceptMapList_isOk]
    constructor
    · intro h r hr
      by_contra hlt
      have := h r (List.mem_cons_of_mem r0 hr)
      rw [hrowerr r (by omega)] at this
      simp at this
    · intro h a ha
      rcases List.mem_cons.mp ha with ha | ha
      · rw [ha, hrow r0 (le_refl _)]; rfl
      · rw [hrow a (h a ha)]; rfl
  · intro h
    rw [add_table_to_doc]
    apply exceptMapList_all_ok
    intro a ha
    rcases List.mem_cons.mp ha with ha | ha
    · rw [ha]; exact hrow r0 (le_refl _)
    · exact hrow a (h a ha)
theorem dictSet_keys_of_not_mem : ∀ (m : List (String × String)) (k v : String),
    k ∉ m.map Prod.fst → (dictSet m k v).map Prod.fst = m.map Prod.fst ++ [k] := by
  intro m
  induction m with
  | nil => intro k v _; rfl
  | cons kv m ih =>
    intro k v hk
    have hne : ¬ kv.1 = k := by
      intro he
      exact hk (by simp [he])
    rw [dictSet, if_neg hne]
    simp only [List.map_cons, List.cons_append]
    rw [ih k v (fun hmem => hk (List.mem_cons_of_mem _ hmem))]

theorem dictGet_dictSet_self : ∀ (m : List (String × String)) (k v : String),
    dictGet k (dictSet m k v) = some v := by
  intro m
  induction m with
  | nil => intro k v; simp [dictSet, dictGet]
  | cons kv m ih =>
    intro k v
    by_cases hkv : kv.1 = k
    · rw [dictSet, if_pos hkv, dictGet]
      simp
    · rw [dictSet, if_neg hkv, dictGet, if_neg hkv]
      exact ih k v

theorem dictGet_dictSet_ne : ∀ (m : List (String × String)) (k k' v : String),
    ¬ k' = k → dictGet k' (dictSet m k v) = dictGet k' m := by
  intro m
  induction m with
  | nil =>
    intro k k' v hne
    have h2 : ¬ k = k' := fun h => hne h.symm
    simp [dictSet, dictGet, h2]
  | cons kv m ih =>
    intro k k' v hne
    by_cases hkv : kv.1 = k
    · rw [dictSet, if_pos hkv, dictGet, dictGet]
      have h1 : ¬ (k, v).1 = k' := fun h => hne h.symm
      have h2 : ¬ kv.1 = k' := by rw [hkv]; exact fun h => hne h.symm
      rw [if_neg h1, if_neg h2]
    · rw [dictSet, if_neg hkv, dictGet, dictGet]
      by_cases hkv' : kv.1 = k'
      · rw [if_pos hkv', if_pos hkv']
      · rw [if_neg hkv', if_neg hkv']
        exact ih k k' v hne

theorem orchestrator_keys (api : String → Except String String) :
    ∀ (order : List SectionDef) (acc : List (String × String)),
    (∀ s ∈ order, s.key ∉ acc.map Prod.fst) →
    (order.map SectionDef.key).Nodup →
    (order.foldl (fun acc s => dictSet acc s.key (generate_section (api s.key))) acc).map Prod.fst
      = acc.map Prod.fst ++ order.map SectionDef.key := by
  intro order
  induction order with
  | nil => intro acc _ _; simp
  | cons s rest ih =>
    intro acc hdisj hnodup
    rw [List.foldl_cons]
    have hkeys := dictSet_keys_of_not_mem acc s.key (generate_section (api s.key))
      (hdisj s (List.mem_cons_self s rest))
    have hnd : (rest.map SectionDef.key).Nodup := by
      simp only [List.map_cons, List.nodup_cons] at hnodup
      exact hnodup.2
    have hdisj2 : ∀ x ∈ rest, x.key ∉ (dictSet acc s.key (generate_section (api s.key))).map Prod.fst := by
      intro x hx
      rw [hkeys]
      intro hmem
      rcases List.mem_append.mp hmem with hmem | hmem
      · exact hdisj x (List.mem_cons_of_mem s hx) hmem
      · simp at hmem
        simp only [List.map_cons, List.nodup_cons] at hnodup
        exact hnodup.1 (hmem ▸ List.mem_map_of_mem SectionDef.key hx)
    rw [ih _ hdisj2 hnd, hkeys]
    simp

theorem orchestrator_lookup_notin (api : String → Except String String) (k : String) :
    ∀ (order : List SectionDef) (acc : List (String × String)),
    k ∉ order.map SectionDef.key →
    dictGet k (order.foldl (fun acc s => dictSet acc s.key (generate_section (api s.key))) acc)
      = dictGet k acc := by
  intro order
  induction order with
  | nil => intro acc _; rfl
  | cons s rest ih =>
    intro acc hk
    rw [List.foldl_cons]
    have hne : ¬ k = s.key := fun he => hk (by simp [he])
    rw [ih _ (fun hmem => hk (List.mem_cons_of_mem _ hmem))]
    exact dictGet_dictSet_ne acc s.key k (generate_section (api s.key)) hne

theorem orchestrator_lookup (api : String → Except String String) (k : String) :
    ∀ (order : List SectionDef) (acc : List (String × String)),
    k ∈ order.map SectionDef.key →
    dictGet k (order.foldl (fun acc s => dictSet acc s.key (generate_section (api s.key))) acc)
      = some (generate_section (api k)) := by
  intro order
  induction order with
  | nil => intro acc h; simp at h
  | cons s rest ih =>
    intro acc hk
    rw [List.foldl_cons]
    by_cases hrest : k ∈ rest.map SectionDef.key
    · exact ih _ hrest
    · have hks : k = s.key := by
        simp only [List.map_cons, List.mem_cons] at hk
        rcases hk with hk | hk
        · exact hk
        · exact absurd hk hrest
      rw [orchestrator_lookup_notin api k rest _ hrest]
      rw [hks]
      exact dictGet_dictSet_self acc s.key (generate_section (api s.key))

/-- C7: after the batch settles, the result mapping of `generate_all_sections`
has exactly one entry per section definition — its keys are a permutation of
the ten section keys (hence ten entries, each section key appearing exactly
once), for every completion order and regardless of which individual
generation calls failed. -/
theorem generate_all_sections_complete (api : String → Except String String)
    (order : List SectionDef) (hperm : order.Perm SECTIONS) :
    ((generate_all_sections api order).map Prod.fst).Perm (SECTIONS.map SectionDef.key)
    ∧ (generate_all_sections api order).length = 10
    ∧ ∀ s ∈ SECTIONS, ((generate_all_sections api order).map Prod.fst).count s.key = 1 := by
  have hnodupS : (SECTIONS.map SectionDef.key).Nodup := by decide
  have hnodup : (order.map SectionDef.key).Nodup :=
    (hperm.map SectionDef.key).nodup_iff.mpr hnodupS
  have hkeys : (generate_all_sections api order).map Prod.fst = order.map SectionDef.key := by
    unfold generate_all_sections
    have := orchestrator_keys api order [] (by simp) hnodup
    simpa using this
  have hpm : ((generate_all_sections api order).map Prod.fst).Perm (SECTIONS.map SectionDef.key) := by
    rw [hkeys]
    exact hperm.map SectionDef.key
  refine ⟨hpm, ?_, ?_⟩
  · have h1 : ((generate_all_sections api order).map Prod.fst).length
        = (SECTIONS.map SectionDef.key).length := hpm.length_eq
    simpa using h1
  · intro s hs
    rw [hpm.count_eq]
    have : ∀ s ∈ SECTIONS, (SECTIONS.map SectionDef.key).count s.key = 1 := by decide
    exact this s hs

/-- Witness for the C7 theorem: the identity completion order with an
all-failing transport still yields a mapping with the ten keys. -/
theorem generate_all_sections_complete_witness :
    ((generate_all_sections (fun _ => Except.error ("boom")) SECTIONS).map Prod.fst).Perm
        (SECTIONS.map SectionDef.key)
    ∧ (generate_all_sections (fun _ => Except.error ("boom")) SECTIONS).length = 10 :=
  ⟨(generate_all_sections_complete (fun _ => Except.error ("boom")) SECTIONS (List.Perm.refl _)).1,
   (generate_all_sections_complete (fun _ => Except.error ("boom")) SECTIONS (List.Perm.refl _)).2.1⟩

/-- C8: per-section isolation of the orchestrator. For every completion order
and every section key, the settled mapping's entry for that key is exactly
what its own generation call produced: the error placeholder
"Error generating section: e" when that call raised e, and the generated
content otherwise — one section's failure leaves every other section's entry
its successful content, and the batch still settles with all entries (C7). -/
theorem generate_all_sections_isolation (api : String → Except String String)
    (order : List SectionDef) (hperm : order.Perm SECTIONS)
    (k : String) (hk : k ∈ SECTIONS.map SectionDef.key) :
    (∀ e, api k = Except.error e →
      dictGet k (generate_all_sections api order) = some ("Error generating section: " ++ e))
    ∧ (∀ c, api k = Except.ok c →
      dictGet k (generate_all_sections api order) = some c) := by
  have hko : k ∈ order.map SectionDef.key :=
    ((hperm.map SectionDef.key).mem_iff).mpr hk
  have hmain : dictGet k (generate_all_sections api order) = some (generate_section (api k)) := by
    unfold generate_all_sections
    exact orchestrator_lookup api k order [] hko
  constructor
  · intro e he
    rw [hmain, he]
    rfl
  · intro c hc
    rw [hmain, hc]
    rfl

/-- Witness for the C8 theorem: with a transport that fails only on
"cost_estimate", that section's entry is the error placeholder and another
section's entry is its content. -/
theorem generate_all_sections_isolation_witness :
    ("cost_estimate" ∈ SECTIONS.map SectionDef.key)
    ∧ dictGet ("cost_estimate")
        (generate_all_sections
          (fun key => if key = "cost_estimate" then Except.error ("quota") else Except.ok ("content"))
          SECTIONS)
        = some ("Error generating section: quota") :=
  ⟨by decide,
   (generate_all_sections_isolation
      (fun key => if key = "cost_estimate" then Except.error ("quota") else Except.ok ("content"))
      SECTIONS (List.Perm.refl _) ("cost_estimate") (by decide)).1 ("quota") (by rfl)⟩
